import Mathlib

/-!
A verification development for `Corrupter.py` (v1.1.0), a streaming file
corruption simulator.  The program reads a source file in chunks of at most
4 MiB, walks each chunk position by position deciding via a Bernoulli trial
whether to corrupt, applies one of four corruption modes (replace, bitflip,
zero, burst), writes the mutated chunk, and accumulates statistics
(`processed_bytes`, `corrupted_bytes`).

The embedding below models file contents as `List Nat` (byte values), the
global `random` module as an explicit sequential stream of draws, and the
filesystem effects of `corrupt_file` as a function from the optional source
content and the prior destination content to an outcome plus the new
destination content and the two counters.
-/

namespace Corrupter

/-- The four corruption modes of the program; `replace` is the default
selected by `main` when no mode flag is passed. -/
inductive Mode
  | replace
  | bitflip
  | zero
  | burst
deriving DecidableEq

/-- The state of the pseudo-random source (Python's global `random` module):
one sequential stream of draws.  `floats t` is the value the `t`-th call
returns when that call is `random.random()` (always in `[0,1)` for the real
generator — captured by `RngValid`), and `ints t` is the raw entropy used
when the `t`-th call is `random.randint`.  A single shared index `idx`
models that both kinds of calls consume the same underlying stream, in
program order. -/
structure Rng where
  floats : Nat → ℚ
  ints : Nat → Nat
  idx : Nat

/-- Advance the stream past one consumed draw. -/
def Rng.next (r : Rng) : Rng := { r with idx := r.idx + 1 }

/-- `random.random()`: one draw, a rational meant to lie in `[0, 1)`
(see `RngValid`). -/
def Rng.random (r : Rng) : ℚ × Rng := (r.floats r.idx, r.next)

/-- `random.randint(lo, hi)`: one draw, a uniform integer in `[lo, hi]`,
modelled by reducing the raw draw modulo the size of the inclusive range. -/
def Rng.randint (r : Rng) (lo hi : Nat) : Nat × Rng :=
  (lo + r.ints r.idx % (hi + 1 - lo), r.next)

/-- The defining property of Python's `random.random()`: every float draw
lies in `[0, 1)`. -/
def RngValid (r : Rng) : Prop := ∀ t, 0 ≤ r.floats t ∧ r.floats t < 1

/-- The body of the burst branch (`for j in range(burst_length): ...`),
viewed from the current walk position: the first `n` elements of the
remaining suffix are overwritten with fresh `randint(0, 255)` draws, one
corrupted byte counted per overwrite; positions past the end of the suffix
(`current_pos < len(mutable_chunk)` fails) are skipped, consuming no draw
and counting nothing.  Returns the rewritten suffix, the number of counted
bytes, and the advanced stream. -/
def burstWrite : Rng → List Nat → Nat → List Nat × Nat × Rng
  | r, rest, 0 => (rest, 0, r)
  | r, [], _ + 1 => ([], 0, r)
  | r, _ :: tl, n + 1 =>
    let v := (r.randint 0 255).1
    let r1 := (r.randint 0 255).2
    let w := burstWrite r1 tl n
    (v :: w.1, w.2.1 + 1, w.2.2)

/-- The single-byte corruption branches (`if mode == 'bitflip' ... elif
mode == 'zero' ... else` replace): given the current byte, produce its
replacement value and the advanced stream.  The catch-all case is the
`else` (replace) branch, exactly as in the source; `burst` never reaches
this code path. -/
def singleCorrupt (mode : Mode) (r : Rng) (b : Nat) : Nat × Rng :=
  match mode with
  | Mode.bitflip => ((b ^^^ (1 <<< (r.randint 0 7).1)), (r.randint 0 7).2)
  | Mode.zero => (0, r)
  | _ => r.randint 0 255

/-- The inner corruption walk (`i = 0; while i < len(mutable_chunk): ...`),
viewed from the current position: the remaining suffix of the chunk is
transformed.  Each iteration draws `random.random()`; on a trigger the mode
effect is applied (burst overwrites the next in-bounds `bl` positions and
jumps by `bl`; the single-byte modes rewrite one byte and advance by 1),
otherwise the walk advances by 1.  `fuel` bounds the number of loop
iterations; `none` means the loop did not terminate within `fuel`
iterations, which for the concrete program can only happen in burst mode
with a non-positive burst length (a configuration `main` rejects).
Returns the mutated suffix, the number of corrupted-byte counter
increments, and the advanced stream. -/
def chunkLoop (prob : ℚ) (mode : Mode) (bl : Nat) :
    Rng → List Nat → Nat → Option (List Nat × Nat × Rng)
  | r, [], _ => some ([], 0, r)
  | _, _ :: _, 0 => none
  | r, b :: tl, fuel + 1 =>
    if (r.random).1 < prob then
      if mode = Mode.burst then
        let w := burstWrite (r.random).2 (b :: tl) bl
        (chunkLoop prob mode bl w.2.2 (w.1.drop bl) fuel).map
          (fun t => (w.1.take bl ++ t.1, w.2.1 + t.2.1, t.2.2))
      else
        let s := singleCorrupt mode (r.random).2 b
        (chunkLoop prob mode bl s.2 tl fuel).map
          (fun t => (s.1 :: t.1, 1 + t.2.1, t.2.2))
    else
      (chunkLoop prob mode bl (r.random).2 tl fuel).map
        (fun t => (b :: t.1, t.2.1, t.2.2))

/-- `BUFFER_SIZE = 4 * 1024 * 1024`: the chunk capacity. -/
def BUFFER_SIZE : Nat := 4 * 1024 * 1024

/-- The outer streaming loop (`while True: chunk = fin.read(BUFFER_SIZE)
...`): repeatedly take a chunk of at most `BUFFER_SIZE` bytes, run the
corruption walk over it, and record the written chunk together with the
number of corrupted-byte increments it contributed.  An empty read ends
the loop.  `fuel` bounds the number of chunks processed; the second
component is `true` exactly when the stream ran to completion within
`fuel` reads (with `fuel = input.length` this is every terminating run). -/
def corruptChunksGo (prob : ℚ) (mode : Mode) (bl : Nat) :
    Rng → List Nat → Nat → List (List Nat × Nat) × Bool
  | _, [], _ => ([], true)
  | _, _ :: _, 0 => ([], false)
  | r, x :: xs, fuel + 1 =>
    let chunk := (x :: xs).take BUFFER_SIZE
    match chunkLoop prob mode bl r chunk chunk.length with
    | none => ([], false)
    | some (out, c, r2) =>
      let rest := corruptChunksGo prob mode bl r2 ((x :: xs).drop BUFFER_SIZE) fuel
      ((out, c) :: rest.1, rest.2)

/-- The streaming loop at its natural fuel (`input.length` dominates the
number of 4 MiB reads any input needs). -/
def corruptChunks (prob : ℚ) (mode : Mode) (bl : Nat) (r : Rng)
    (input : List Nat) : List (List Nat × Nat) × Bool :=
  corruptChunksGo prob mode bl r input input.length

/-- Concatenation of the written chunks: the destination file content. -/
def outputOf : List (List Nat × Nat) → List Nat
  | [] => []
  | x :: cs => x.1 ++ outputOf cs

/-- `processed_bytes` at end of stream: the sum of chunk lengths. -/
def processedOf : List (List Nat × Nat) → Nat
  | [] => 0
  | x :: cs => x.1.length + processedOf cs

/-- `corrupted_bytes` at end of stream: the sum of per-chunk counts. -/
def corruptedOf : List (List Nat × Nat) → Nat
  | [] => 0
  | x :: cs => x.2 + corruptedOf cs

/-- The number of positions at which two byte strings differ (extra
positions of the longer one, if any, are ignored). -/
def diffCount (a b : List Nat) : Nat :=
  ((a.zip b).filter (fun p => p.1 != p.2)).length

/-- The `(processed_bytes, corrupted_bytes)` snapshots observed after each
statistics-counter update during the run, in program order, starting from
the accumulator values `(p, c)`.  Within a chunk every update is a
`corrupted_bytes += 1` (so the `k` mid-chunk snapshots of a chunk with `k`
increments are `(p, c+1), ..., (p, c+k)`, with `processed_bytes` still at
its pre-chunk value); after the chunk is written, the single
`processed_bytes += len(chunk)` update yields one more snapshot. -/
def statTrace : Nat → Nat → List (List Nat × Nat) → List (Nat × Nat)
  | _, _, [] => []
  | p, c, x :: cs =>
    ((List.range x.2).map (fun m => (p, c + m + 1))) ++
      ((p + x.1.length, c + x.2) :: statTrace (p + x.1.length) (c + x.2) cs)

/-- Only the snapshots taken right after each `processed_bytes += len(chunk)`
update (the chunk boundaries, including the final one). -/
def boundaryTrace : Nat → Nat → List (List Nat × Nat) → List (Nat × Nat)
  | _, _, [] => []
  | p, c, x :: cs =>
    (p + x.1.length, c + x.2) :: boundaryTrace (p + x.1.length) (c + x.2) cs

/-- How a run of `corrupt_file` ends: the missing-source early return, a
completed stream, or a non-terminating walk (only reachable with a
non-positive burst length, which `main` rejects). -/
inductive Outcome
  | sourceNotFound
  | completed
  | diverged
deriving DecidableEq

/-- `corrupt_file`, as a function of the filesystem slice it touches: the
source content (`none` when the path does not exist, making
`os.path.getsize` raise `FileNotFoundError`), the destination content
before the run, the configuration, and the random stream.  Returns the
outcome, the destination content after the run, and the final
`processed_bytes` and `corrupted_bytes` counters.  On a missing source the
function returns before the destination is even opened, so the
destination is left exactly as it was. -/
def corrupt_file (src dest : Option (List Nat)) (prob : ℚ) (mode : Mode)
    (bl : Nat) (r : Rng) : Outcome × Option (List Nat) × Nat × Nat :=
  match src with
  | none => (Outcome.sourceNotFound, dest, 0, 0)
  | some input =>
    let run := corruptChunks prob mode bl r input
    ((if run.2 then Outcome.completed else Outcome.diverged),
      some (outputOf run.1), processedOf run.1, corruptedOf run.1)

/-- Modelled from the spec: `random.seed(seed)` (called by `main` when a
seed is given) installs a deterministic pseudo-random stream — Python's
Mersenne Twister, which is standard-library code, not part of this
repository.  Per the spec, what matters is only that the stream is a
function of the seed; an explicit integer-mixing stream stands in for the
Twister.  The float draws land in `[0, 1)` (see `ofSeed_valid`). -/
def Rng.ofSeed (seed : Int) : Rng :=
  { floats := fun t => (((seed.natAbs + t + 1) * 2654435761 % 1000003 : ℕ) : ℚ) / 1000003
    ints := fun t => (seed.natAbs + t + 1) * 40503 % 65536
    idx := 0 }

/-- A concrete random stream used for test evaluations: every float draw is
`0` (so a positive probability always triggers) and every raw integer draw
is `0`. -/
def rng0 : Rng :=
  { floats := fun _ => 0
    ints := fun _ => 0
    idx := 0 }

/-! ### Basic facts about the random stream -/

@[simp] theorem Rng.next_floats (r : Rng) : r.next.floats = r.floats := rfl

@[simp] theorem Rng.next_ints (r : Rng) : r.next.ints = r.ints := rfl

@[simp] theorem Rng.next_idx (r : Rng) : r.next.idx = r.idx + 1 := rfl

theorem RngValid.next {r : Rng} (h : RngValid r) : RngValid r.next := h

theorem singleCorrupt_floats (mode : Mode) (r : Rng) (b : Nat) :
    (singleCorrupt mode r b).2.floats = r.floats := by
  cases mode <;> simp [singleCorrupt, Rng.randint, Rng.next]

theorem singleCorrupt_ints (mode : Mode) (r : Rng) (b : Nat) :
    (singleCorrupt mode r b).2.ints = r.ints := by
  cases mode <;> simp [singleCorrupt, Rng.randint, Rng.next]

/-! ### Facts about the burst branch -/

theorem burstWrite_length (n : Nat) :
    ∀ (r : Rng) (rest : List Nat), (burstWrite r rest n).1.length = rest.length := by
  induction n with
  | zero => intro r rest; simp [burstWrite]
  | succ n ih =>
    intro r rest
    cases rest with
    | nil => simp [burstWrite]
    | cons b tl => simp [burstWrite, ih]

theorem burstWrite_count (n : Nat) :
    ∀ (r : Rng) (rest : List Nat), (burstWrite r rest n).2.1 = min n rest.length := by
  induction n with
  | zero => intro r rest; simp [burstWrite]
  | succ n ih =>
    intro r rest
    cases rest with
    | nil => simp [burstWrite]
    | cons b tl => simp [burstWrite, ih]; omega

theorem burstWrite_drop (n : Nat) :
    ∀ (r : Rng) (rest : List Nat), (burstWrite r rest n).1.drop n = rest.drop n := by
  induction n with
  | zero => intro r rest; simp [burstWrite]
  | succ n ih =>
    intro r rest
    cases rest with
    | nil => simp [burstWrite]
    | cons b tl => simp [burstWrite, ih]

theorem burstWrite_getElem? (n : Nat) :
    ∀ (r : Rng) (rest : List Nat) (j : Nat), j < min n rest.length →
      (burstWrite r rest n).1[j]? = some (r.ints (r.idx + j) % 256) := by
  induction n with
  | zero => intro r rest j hj; omega
  | succ n ih =>
    intro r rest j hj
    cases rest with
    | nil => simp at hj
    | cons b tl =>
      cases j with
      | zero => simp [burstWrite, Rng.randint]
      | succ j =>
        have hj' : j < min n tl.length := by simp at hj ⊢; omega
        have h2 := ih ((Rng.randint r 0 255).2) tl j hj'
        simp only [Rng.randint] at h2
        simp only [Rng.next_ints, Rng.next_idx] at h2
        have harg : r.idx + 1 + j = r.idx + (j + 1) := by omega
        rw [harg] at h2
        simp [burstWrite, Rng.randint, h2]

theorem burstWrite_floats (n : Nat) :
    ∀ (r : Rng) (rest : List Nat), (burstWrite r rest n).2.2.floats = r.floats := by
  induction n with
  | zero => intro r rest; simp [burstWrite]
  | succ n ih =>
    intro r rest
    cases rest with
    | nil => simp [burstWrite]
    | cons b tl => simp [burstWrite, ih, Rng.randint, Rng.next]

theorem burstWrite_ints (n : Nat) :
    ∀ (r : Rng) (rest : List Nat), (burstWrite r rest n).2.2.ints = r.ints := by
  induction n with
  | zero => intro r rest; simp [burstWrite]
  | succ n ih =>
    intro r rest
    cases rest with
    | nil => simp [burstWrite]
    | cons b tl => simp [burstWrite, ih, Rng.randint, Rng.next]

/-! ### Facts about `diffCount` -/

theorem diffCount_nil_left (b : List Nat) : diffCount [] b = 0 := rfl

theorem diffCount_nil_right (a : List Nat) : diffCount a [] = 0 := by
  simp [diffCount]

theorem diffCount_cons (x y : Nat) (a b : List Nat) :
    diffCount (x :: a) (y :: b) = (if x = y then 0 else 1) + diffCount a b := by
  by_cases h : x = y
  · simp [diffCount, List.filter_cons, h]
  · simp [diffCount, List.filter_cons, h]; omega

theorem diffCount_append (a1 a2 b1 b2 : List Nat) (h : a1.length = b1.length) :
    diffCount (a1 ++ a2) (b1 ++ b2) = diffCount a1 b1 + diffCount a2 b2 := by
  induction a1 generalizing b1 with
  | nil =>
    cases b1 with
    | nil => simp [diffCount_nil_left]
    | cons y b1 => simp at h
  | cons x a1 ih =>
    cases b1 with
    | nil => simp at h
    | cons y b1 =>
      simp only [List.length_cons, Nat.add_right_cancel_iff] at h
      simp only [List.cons_append, diffCount_cons, ih b1 h]
      omega

theorem diffCount_split (k : Nat) (a b1 b2 : List Nat)
    (h : b1.length = min k a.length) :
    diffCount a (b1 ++ b2) = diffCount (a.take k) b1 + diffCount (a.drop k) b2 := by
  conv_lhs => rw [← List.take_append_drop k a]
  exact diffCount_append _ _ _ _ (by rw [List.length_take, h])

theorem diffCount_le_length (a b : List Nat) : diffCount a b ≤ a.length :=
  calc diffCount a b ≤ (a.zip b).length := List.length_filter_le _ _
    _ = min a.length b.length := List.length_zip a b
    _ ≤ a.length := min_le_left _ _

/-! ### The combined safety spec of the chunk walk: length preservation,
counter bound, difference bound, and random-stream threading -/

theorem chunkLoop_spec (prob : ℚ) (mode : Mode) (bl : Nat) :
    ∀ (fuel : Nat) (r : Rng) (rest out : List Nat) (c : Nat) (r2 : Rng),
      chunkLoop prob mode bl r rest fuel = some (out, c, r2) →
        out.length = rest.length ∧ c ≤ rest.length ∧ diffCount rest out ≤ c ∧
          r2.floats = r.floats ∧ r2.ints = r.ints := by
  intro fuel
  induction fuel with
  | zero =>
    intro r rest out c r2 h
    cases rest with
    | nil =>
      simp only [chunkLoop, Option.some.injEq, Prod.mk.injEq] at h
      obtain ⟨h1, h2, h3⟩ := h
      subst h1; subst h2; subst h3
      simp [diffCount_nil_right]
    | cons b tl => simp [chunkLoop] at h
  | succ fuel ih =>
    intro r rest out c r2 h
    cases rest with
    | nil =>
      simp only [chunkLoop, Option.some.injEq, Prod.mk.injEq] at h
      obtain ⟨h1, h2, h3⟩ := h
      subst h1; subst h2; subst h3
      simp [diffCount_nil_right]
    | cons b tl =>
      simp only [chunkLoop] at h
      by_cases htr : (r.random).1 < prob
      · rw [if_pos htr] at h
        by_cases hb : mode = Mode.burst
        · subst hb
          rw [if_pos rfl] at h
          cases hrec : chunkLoop prob Mode.burst bl
              (burstWrite (r.random).2 (b :: tl) bl).2.2
              ((burstWrite (r.random).2 (b :: tl) bl).1.drop bl) fuel with
          | none => rw [hrec] at h; simp at h
          | some t =>
            obtain ⟨t1, tc, tr⟩ := t
            rw [hrec] at h
            simp only [Option.map_some', Option.some.injEq, Prod.mk.injEq] at h
            obtain ⟨h1, h2, h3⟩ := h
            subst h1; subst h2; subst h3
            obtain ⟨ihl, ihc, ihd, ihf, ihi⟩ := ih _ _ _ _ _ hrec
            have hwlen : (burstWrite (r.random).2 (b :: tl) bl).1.length
                = (b :: tl).length := burstWrite_length bl _ _
            have hwcnt : (burstWrite (r.random).2 (b :: tl) bl).2.1
                = min bl (b :: tl).length := burstWrite_count bl _ _
            have hwdrop : (burstWrite (r.random).2 (b :: tl) bl).1.drop bl
                = (b :: tl).drop bl := burstWrite_drop bl _ _
            have hwf : (burstWrite (r.random).2 (b :: tl) bl).2.2.floats
                = r.floats := burstWrite_floats bl _ _
            have hwi : (burstWrite (r.random).2 (b :: tl) bl).2.2.ints
                = r.ints := burstWrite_ints bl _ _
            refine ⟨?_, ?_, ?_, ?_, ?_⟩
            · rw [List.length_append, List.length_take, ihl, hwdrop,
                List.length_drop, hwlen]
              simp only [List.length_cons] at *
              omega
            · rw [hwdrop, List.length_drop] at ihc
              simp only [List.length_cons] at *
              omega
            · have hdeq : diffCount (b :: tl)
                  ((burstWrite (r.random).2 (b :: tl) bl).1.take bl ++ t1)
                  = diffCount ((b :: tl).take bl)
                      ((burstWrite (r.random).2 (b :: tl) bl).1.take bl)
                    + diffCount ((b :: tl).drop bl) t1 :=
                diffCount_split bl (b :: tl) _ t1 (by rw [List.length_take, hwlen])
              have d1 : diffCount ((b :: tl).take bl)
                  ((burstWrite (r.random).2 (b :: tl) bl).1.take bl)
                  ≤ min bl (b :: tl).length := by
                have := diffCount_le_length ((b :: tl).take bl)
                  ((burstWrite (r.random).2 (b :: tl) bl).1.take bl)
                rw [List.length_take] at this
                exact this
              rw [hwdrop] at ihd
              omega
            · rw [ihf, hwf]
            · rw [ihi, hwi]
        · rw [if_neg hb] at h
          cases hrec : chunkLoop prob mode bl
              (singleCorrupt mode (r.random).2 b).2 tl fuel with
          | none => rw [hrec] at h; simp at h
          | some t =>
            obtain ⟨t1, tc, tr⟩ := t
            rw [hrec] at h
            simp only [Option.map_some', Option.some.injEq, Prod.mk.injEq] at h
            obtain ⟨h1, h2, h3⟩ := h
            subst h1; subst h2; subst h3
            obtain ⟨ihl, ihc, ihd, ihf, ihi⟩ := ih _ _ _ _ _ hrec
            refine ⟨by simp [ihl], by simp; omega, ?_, ?_, ?_⟩
            · rw [diffCount_cons]
              have : (if b = (singleCorrupt mode (r.random).2 b).1 then 0 else 1)
                  ≤ 1 := by split <;> omega
              omega
            · rw [ihf, singleCorrupt_floats]; rfl
            · rw [ihi, singleCorrupt_ints]; rfl
      · rw [if_neg htr] at h
        cases hrec : chunkLoop prob mode bl (r.random).2 tl fuel with
        | none => rw [hrec] at h; simp at h
        | some t =>
          obtain ⟨t1, tc, tr⟩ := t
          rw [hrec] at h
          simp only [Option.map_some', Option.some.injEq, Prod.mk.injEq] at h
          obtain ⟨h1, h2, h3⟩ := h
          subst h1; subst h2; subst h3
          obtain ⟨ihl, ihc, ihd, ihf, ihi⟩ := ih _ _ _ _ _ hrec
          refine ⟨by simp [ihl], by simp; omega, ?_, by rw [ihf]; rfl,
            by rw [ihi]; rfl⟩
          rw [diffCount_cons, if_pos rfl]
          omega

/-! ### Behaviour of the chunk walk under extreme probabilities, and in
bitflip mode -/

theorem chunkLoop_nontrigger (prob : ℚ) (mode : Mode) (bl : Nat)
    (hp : prob ≤ 0) :
    ∀ (fuel : Nat) (r : Rng) (rest : List Nat), (∀ t, 0 ≤ r.floats t) →
      rest.length ≤ fuel →
      ∃ r2 : Rng, chunkLoop prob mode bl r rest fuel = some (rest, 0, r2) := by
  intro fuel
  induction fuel with
  | zero =>
    intro r rest hv hfuel
    cases rest with
    | nil => exact ⟨r, by simp [chunkLoop]⟩
    | cons b tl => simp at hfuel
  | succ fuel ih =>
    intro r rest hv hfuel
    cases rest with
    | nil => exact ⟨r, by simp [chunkLoop]⟩
    | cons b tl =>
      have hntr : ¬ ((r.random).1 < prob) := by
        simp only [Rng.random]
        exact not_lt.2 (le_trans hp (hv r.idx))
      obtain ⟨r2, hrec⟩ := ih (r.random).2 tl (fun t => hv t)
        (by simp at hfuel ⊢; omega)
      exact ⟨r2, by simp only [chunkLoop, if_neg hntr, hrec, Option.map_some']⟩

theorem chunkLoop_alltrigger (prob : ℚ) (mode : Mode) (bl : Nat)
    (hp : 1 ≤ prob) (hm : mode ≠ Mode.burst) :
    ∀ (fuel : Nat) (r : Rng) (rest : List Nat), (∀ t, r.floats t < 1) →
      rest.length ≤ fuel →
      ∃ (out : List Nat) (r2 : Rng),
        chunkLoop prob mode bl r rest fuel = some (out, rest.length, r2) := by
  intro fuel
  induction fuel with
  | zero =>
    intro r rest hv hfuel
    cases rest with
    | nil => exact ⟨[], r, by simp [chunkLoop]⟩
    | cons b tl => simp at hfuel
  | succ fuel ih =>
    intro r rest hv hfuel
    cases rest with
    | nil => exact ⟨[], r, by simp [chunkLoop]⟩
    | cons b tl =>
      have htr : (r.random).1 < prob := by
        simp only [Rng.random]
        exact lt_of_lt_of_le (hv r.idx) hp
      have hvs : ∀ t, (singleCorrupt mode (r.random).2 b).2.floats t < 1 := by
        intro t
        rw [singleCorrupt_floats]
        exact hv t
      obtain ⟨out, r2, hrec⟩ := ih (singleCorrupt mode (r.random).2 b).2 tl hvs
        (by simp at hfuel ⊢; omega)
      refine ⟨(singleCorrupt mode (r.random).2 b).1 :: out, r2, ?_⟩
      simp only [chunkLoop, if_pos htr, if_neg hm, hrec, Option.map_some',
        List.length_cons, Option.some.injEq, Prod.mk.injEq, true_and, and_true]
      omega

theorem xor_one_shiftLeft_ne (b k : Nat) : b ^^^ (1 <<< k) ≠ b := by
  intro h
  have h3 : b ^^^ (b ^^^ (1 <<< k)) = b ^^^ b := by rw [h]
  rw [← Nat.xor_assoc, Nat.xor_self, Nat.zero_xor] at h3
  have hpos : (0:Nat) < 1 <<< k := by
    rw [Nat.shiftLeft_eq]
    positivity
  omega

theorem chunkLoop_bitflip (prob : ℚ) (bl : Nat) :
    ∀ (fuel : Nat) (r : Rng) (rest out : List Nat) (c : Nat) (r2 : Rng),
      chunkLoop prob Mode.bitflip bl r rest fuel = some (out, c, r2) →
        c = diffCount rest out ∧
        List.Forall₂
          (fun w v => w = v ∨ ∃ k, k < 8 ∧ v = w ^^^ (1 <<< k) ∧ v ≠ w)
          rest out := by
  intro fuel
  induction fuel with
  | zero =>
    intro r rest out c r2 h
    cases rest with
    | nil =>
      simp only [chunkLoop, Option.some.injEq, Prod.mk.injEq] at h
      obtain ⟨h1, h2, h3⟩ := h
      subst h1; subst h2; subst h3
      exact ⟨rfl, List.Forall₂.nil⟩
    | cons b tl => simp [chunkLoop] at h
  | succ fuel ih =>
    intro r rest out c r2 h
    cases rest with
    | nil =>
      simp only [chunkLoop, Option.some.injEq, Prod.mk.injEq] at h
      obtain ⟨h1, h2, h3⟩ := h
      subst h1; subst h2; subst h3
      exact ⟨rfl, List.Forall₂.nil⟩
    | cons b tl =>
      simp only [chunkLoop] at h
      by_cases htr : (r.random).1 < prob
      · rw [if_pos htr, if_neg (by simp)] at h
        cases hrec : chunkLoop prob Mode.bitflip bl
            (singleCorrupt Mode.bitflip (r.random).2 b).2 tl fuel with
        | none => rw [hrec] at h; simp at h
        | some t =>
          obtain ⟨t1, tc, tr⟩ := t
          rw [hrec] at h
          simp only [Option.map_some', Option.some.injEq, Prod.mk.injEq] at h
          obtain ⟨h1, h2, h3⟩ := h
          subst h1; subst h2; subst h3
          obtain ⟨ihc, ihrel⟩ := ih _ _ _ _ _ hrec
          have hval : (singleCorrupt Mode.bitflip (r.random).2 b).1
              = b ^^^ (1 <<< ((r.random).2.ints ((r.random).2.idx) % 8)) := by
            simp [singleCorrupt, Rng.randint]
          have hk : (r.random).2.ints ((r.random).2.idx) % 8 < 8 :=
            Nat.mod_lt _ (by norm_num)
          have hne : (singleCorrupt Mode.bitflip (r.random).2 b).1 ≠ b := by
            rw [hval]; exact xor_one_shiftLeft_ne b _
          constructor
          · rw [diffCount_cons, if_neg (fun hbe => hne hbe.symm)]
            omega
          · exact List.Forall₂.cons
              (Or.inr ⟨_, hk, hval, hne⟩) ihrel
      · rw [if_neg htr] at h
        cases hrec : chunkLoop prob Mode.bitflip bl (r.random).2 tl fuel with
        | none => rw [hrec] at h; simp at h
        | some t =>
          obtain ⟨t1, tc, tr⟩ := t
          rw [hrec] at h
          simp only [Option.map_some', Option.some.injEq, Prod.mk.injEq] at h
          obtain ⟨h1, h2, h3⟩ := h
          subst h1; subst h2; subst h3
          obtain ⟨ihc, ihrel⟩ := ih _ _ _ _ _ hrec
          constructor
          · rw [diffCount_cons, if_pos rfl]
            omega
          · exact List.Forall₂.cons (Or.inl rfl) ihrel

/-! ### The streaming engine: aggregate facts over all chunks -/

theorem BUFFER_SIZE_pos : 0 < BUFFER_SIZE := by norm_num [BUFFER_SIZE]

theorem corruptChunksGo_spec (prob : ℚ) (mode : Mode) (bl : Nat) :
    ∀ (fuel : Nat) (r : Rng) (input : List Nat) (cs : List (List Nat × Nat))
      (fin : Bool),
      corruptChunksGo prob mode bl r input fuel = (cs, fin) →
        (fin = true →
          (outputOf cs).length = input.length ∧
            processedOf cs = input.length) ∧
        corruptedOf cs ≤ processedOf cs ∧
        diffCount input (outputOf cs) ≤ corruptedOf cs ∧
        (∀ x ∈ cs, x.2 ≤ x.1.length) := by
  intro fuel
  induction fuel with
  | zero =>
    intro r input cs fin h
    cases input with
    | nil =>
      simp only [corruptChunksGo, Prod.mk.injEq] at h
      obtain ⟨h1, h2⟩ := h
      subst h1; subst h2
      simp [outputOf, processedOf, corruptedOf, diffCount_nil_right]
    | cons x xs =>
      simp only [corruptChunksGo, Prod.mk.injEq] at h
      obtain ⟨h1, h2⟩ := h
      subst h1; subst h2
      simp [outputOf, processedOf, corruptedOf, diffCount_nil_right]
  | succ fuel ih =>
    intro r input cs fin h
    cases input with
    | nil =>
      simp only [corruptChunksGo, Prod.mk.injEq] at h
      obtain ⟨h1, h2⟩ := h
      subst h1; subst h2
      simp [outputOf, processedOf, corruptedOf, diffCount_nil_right]
    | cons x xs =>
      simp only [corruptChunksGo] at h
      cases hck : chunkLoop prob mode bl r ((x :: xs).take BUFFER_SIZE)
          ((x :: xs).take BUFFER_SIZE).length with
      | none =>
        rw [hck] at h
        simp only [Prod.mk.injEq] at h
        obtain ⟨h1, h2⟩ := h
        subst h1; subst h2
        simp [outputOf, processedOf, corruptedOf, diffCount_nil_right]
      | some t =>
        obtain ⟨out, c, r2⟩ := t
        rw [hck] at h
        simp only [Prod.mk.injEq] at h
        obtain ⟨h1, h2⟩ := h
        subst h1; subst h2
        obtain ⟨ckl, ckc, ckd, -, -⟩ := chunkLoop_spec prob mode bl _ _ _ _ _ _ hck
        obtain ⟨ihA, ihB, ihC, ihD⟩ := ih r2 ((x :: xs).drop BUFFER_SIZE) _ _ rfl
        rw [List.length_take] at ckl ckc
        refine ⟨?_, ?_, ?_, ?_⟩
        · intro hfin
          obtain ⟨ihA1, ihA2⟩ := ihA hfin
          rw [List.length_drop] at ihA1 ihA2
          constructor
          · simp only [outputOf, List.length_append]
            have hB := BUFFER_SIZE_pos
            simp only [List.length_cons] at *
            omega
          · simp only [processedOf]
            have hB := BUFFER_SIZE_pos
            simp only [List.length_cons] at *
            omega
        · simp only [corruptedOf, processedOf]
          omega
        · simp only [outputOf, corruptedOf]
          rw [diffCount_split BUFFER_SIZE (x :: xs) out _ (by rw [ckl])]
          omega
        · intro y hy
          simp only [List.mem_cons] at hy
          rcases hy with hy | hy
          · subst hy
            simp only
            omega
          · exact ihD y hy

theorem corruptChunksGo_nontrigger (prob : ℚ) (mode : Mode) (bl : Nat)
    (hp : prob ≤ 0) :
    ∀ (fuel : Nat) (r : Rng) (input : List Nat), (∀ t, 0 ≤ r.floats t) →
      input.length ≤ fuel →
      ∃ cs, corruptChunksGo prob mode bl r input fuel = (cs, true) ∧
        outputOf cs = input ∧ corruptedOf cs = 0 := by
  intro fuel
  induction fuel with
  | zero =>
    intro r input hv hfuel
    cases input with
    | nil => exact ⟨[], by simp [corruptChunksGo], rfl, rfl⟩
    | cons x xs => simp at hfuel
  | succ fuel ih =>
    intro r input hv hfuel
    cases input with
    | nil => exact ⟨[], by simp [corruptChunksGo], rfl, rfl⟩
    | cons x xs =>
      obtain ⟨r2, hck⟩ := chunkLoop_nontrigger prob mode bl hp
        ((x :: xs).take BUFFER_SIZE).length r ((x :: xs).take BUFFER_SIZE)
        hv le_rfl
      obtain ⟨-, -, -, hf2, -⟩ := chunkLoop_spec prob mode bl _ _ _ _ _ _ hck
      obtain ⟨cs', hgo, hout, hcor⟩ := ih r2 ((x :: xs).drop BUFFER_SIZE)
        (fun t => by rw [hf2]; exact hv t)
        (by
          rw [List.length_drop]
          have hB := BUFFER_SIZE_pos
          simp only [List.length_cons] at hfuel ⊢
          omega)
      refine ⟨((x :: xs).take BUFFER_SIZE, 0) :: cs', ?_, ?_, ?_⟩
      · simp only [corruptChunksGo, hck, hgo]
      · simp only [outputOf, hout, List.take_append_drop]
      · simp only [corruptedOf, hcor]

theorem corruptChunksGo_alltrigger (prob : ℚ) (mode : Mode) (bl : Nat)
    (hp : 1 ≤ prob) (hm : mode ≠ Mode.burst) :
    ∀ (fuel : Nat) (r : Rng) (input : List Nat), (∀ t, r.floats t < 1) →
      input.length ≤ fuel →
      ∃ cs, corruptChunksGo prob mode bl r input fuel = (cs, true) ∧
        corruptedOf cs = input.length := by
  intro fuel
  induction fuel with
  | zero =>
    intro r input hv hfuel
    cases input with
    | nil => exact ⟨[], by simp [corruptChunksGo], rfl⟩
    | cons x xs => simp at hfuel
  | succ fuel ih =>
    intro r input hv hfuel
    cases input with
    | nil => exact ⟨[], by simp [corruptChunksGo], rfl⟩
    | cons x xs =>
      obtain ⟨out, r2, hck⟩ := chunkLoop_alltrigger prob mode bl hp hm
        ((x :: xs).take BUFFER_SIZE).length r ((x :: xs).take BUFFER_SIZE)
        hv le_rfl
      obtain ⟨-, -, -, hf2, -⟩ := chunkLoop_spec prob mode bl _ _ _ _ _ _ hck
      obtain ⟨cs', hgo, hcor⟩ := ih r2 ((x :: xs).drop BUFFER_SIZE)
        (fun t => by rw [hf2]; exact hv t)
        (by
          rw [List.length_drop]
          have hB := BUFFER_SIZE_pos
          simp only [List.length_cons] at hfuel ⊢
          omega)
      refine ⟨(out, ((x :: xs).take BUFFER_SIZE).length) :: cs', ?_, ?_⟩
      · simp only [corruptChunksGo, hck, hgo]
      · simp only [corruptedOf, hcor, List.length_take, List.length_drop]
        have hB := BUFFER_SIZE_pos
        simp only [List.length_cons] at *
        omega

theorem corruptChunksGo_bitflip (prob : ℚ) (bl : Nat) :
    ∀ (fuel : Nat) (r : Rng) (input : List Nat) (cs : List (List Nat × Nat)),
      corruptChunksGo prob Mode.bitflip bl r input fuel = (cs, true) →
        corruptedOf cs = diffCount input (outputOf cs) ∧
        List.Forall₂
          (fun w v => w = v ∨ ∃ k, k < 8 ∧ v = w ^^^ (1 <<< k) ∧ v ≠ w)
          input (outputOf cs) := by
  intro fuel
  induction fuel with
  | zero =>
    intro r input cs h
    cases input with
    | nil =>
      simp only [corruptChunksGo, Prod.mk.injEq] at h
      rw [← h.1]
      exact ⟨rfl, List.Forall₂.nil⟩
    | cons x xs => simp [corruptChunksGo] at h
  | succ fuel ih =>
    intro r input cs h
    cases input with
    | nil =>
      simp only [corruptChunksGo, Prod.mk.injEq] at h
      rw [← h.1]
      exact ⟨rfl, List.Forall₂.nil⟩
    | cons x xs =>
      simp only [corruptChunksGo] at h
      cases hck : chunkLoop prob Mode.bitflip bl r ((x :: xs).take BUFFER_SIZE)
          ((x :: xs).take BUFFER_SIZE).length with
      | none =>
        rw [hck] at h
        simp at h
      | some t =>
        obtain ⟨out, c, r2⟩ := t
        rw [hck] at h
        simp only [Prod.mk.injEq] at h
        obtain ⟨h1, h2⟩ := h
        subst h1
        obtain ⟨ihc, ihrel⟩ := ih r2 ((x :: xs).drop BUFFER_SIZE) _
          (by rw [← h2])
        obtain ⟨ckc, ckrel⟩ := chunkLoop_bitflip prob bl _ _ _ _ _ _ hck
        obtain ⟨ckl, -, -, -, -⟩ := chunkLoop_spec prob Mode.bitflip bl _ _ _ _ _ _ hck
        constructor
        · simp only [corruptedOf, outputOf]
          rw [diffCount_split BUFFER_SIZE (x :: xs) out _
            (by rw [ckl, List.length_take]), ckc, ihc]
        · have hsplit : List.Forall₂
              (fun w v => w = v ∨ ∃ k, k < 8 ∧ v = w ^^^ (1 <<< k) ∧ v ≠ w)
              ((x :: xs).take BUFFER_SIZE ++ (x :: xs).drop BUFFER_SIZE)
              (out ++ outputOf _) := List.rel_append ckrel ihrel
          rw [List.take_append_drop] at hsplit
          exact hsplit

theorem boundaryTrace_le (cs : List (List Nat × Nat)) :
    ∀ p c : Nat, c ≤ p → (∀ x ∈ cs, x.2 ≤ x.1.length) →
      ∀ e ∈ boundaryTrace p c cs, e.2 ≤ e.1 := by
  induction cs with
  | nil => intro p c _ _ e he; simp [boundaryTrace] at he
  | cons x cs ih =>
    intro p c hcp hwf e he
    simp only [boundaryTrace, List.mem_cons] at he
    have hx := hwf x (by simp)
    rcases he with he | he
    · subst he
      simp only
      omega
    · exact ih (p + x.1.length) (c + x.2) (by omega)
        (fun y hy => hwf y (by simp [hy])) e he

/-! ### Shared helpers for the claim theorems -/

theorem rng0_valid : RngValid rng0 :=
  fun _ => ⟨le_refl 0, show (0:ℚ) < 1 by norm_num⟩

theorem completed_run_out (input : List Nat) (dest : Option (List Nat))
    (prob : ℚ) (mode : Mode) (bl : Nat) (r : Rng) (out : List Nat) (p c : Nat)
    (h : corrupt_file (some input) dest prob mode bl r
        = (Outcome.completed, some out, p, c)) :
    corruptChunksGo prob mode bl r input input.length
        = ((corruptChunks prob mode bl r input).1, true) ∧
      out = outputOf (corruptChunks prob mode bl r input).1 ∧
      p = processedOf (corruptChunks prob mode bl r input).1 ∧
      c = corruptedOf (corruptChunks prob mode bl r input).1 := by
  simp only [corrupt_file, Prod.mk.injEq] at h
  obtain ⟨h1, h2, h3, h4⟩ := h
  cases hfin : (corruptChunks prob mode bl r input).2 with
  | false => rw [hfin] at h1; simp at h1
  | true =>
    refine ⟨?_, by simpa using h2.symm, h3.symm, h4.symm⟩
    rw [← hfin]
    rfl

theorem run_nonpos (input : List Nat) (dest : Option (List Nat)) (prob : ℚ)
    (mode : Mode) (bl : Nat) (r : Rng) (hp : prob ≤ 0) (hv : RngValid r) :
    corrupt_file (some input) dest prob mode bl r
      = (Outcome.completed, some input, input.length, 0) := by
  obtain ⟨cs, hgo, hout, hcor⟩ := corruptChunksGo_nontrigger prob mode bl hp
    input.length r input (fun t => (hv t).1) le_rfl
  have hproc : processedOf cs = input.length :=
    ((corruptChunksGo_spec prob mode bl input.length r input cs true hgo).1
      rfl).2
  simp only [corrupt_file, corruptChunks, hgo, hout, hcor, hproc, if_true]

/-! ### The claims -/

/-- Claim C9: when the source path does not exist, the run fails with the
source-not-found outcome before any streaming (zero bytes processed, zero
corrupted), and the destination is neither created nor modified. -/
theorem missingSourceNoMutation (dest : Option (List Nat)) (prob : ℚ)
    (mode : Mode) (bl : Nat) (r : Rng) :
    corrupt_file none dest prob mode bl r
      = (Outcome.sourceNotFound, dest, 0, 0) := rfl

/-- Claim C2: for a fixed seed, fixed configuration, and fixed input, two
independent runs of the corruption engine — each started from the random
stream that seeding installs — produce identical results, and in particular
the same destination bytes and the same corrupted-bytes count. -/
theorem seededDeterminism (seed : Int) (src dest : Option (List Nat))
    (prob : ℚ) (mode : Mode) (bl : Nat) (r1 r2 : Rng)
    (h1 : r1 = Rng.ofSeed seed) (h2 : r2 = Rng.ofSeed seed) :
    corrupt_file src dest prob mode bl r1
        = corrupt_file src dest prob mode bl r2 ∧
      (corrupt_file src dest prob mode bl r1).2.2.2
        = (corrupt_file src dest prob mode bl r2).2.2.2 := by
  subst h1
  subst h2
  exact ⟨rfl, rfl⟩

theorem seededDeterminism_witness :
    Rng.ofSeed 42 = Rng.ofSeed 42 ∧
      (corrupt_file (some [1, 2, 3]) none 1 Mode.replace 1 (Rng.ofSeed 42)
          = corrupt_file (some [1, 2, 3]) none 1 Mode.replace 1 (Rng.ofSeed 42) ∧
        (corrupt_file (some [1, 2, 3]) none 1 Mode.replace 1
            (Rng.ofSeed 42)).2.2.2
          = (corrupt_file (some [1, 2, 3]) none 1 Mode.replace 1
            (Rng.ofSeed 42)).2.2.2) :=
  ⟨rfl, seededDeterminism 42 (some [1, 2, 3]) none 1 Mode.replace 1
    (Rng.ofSeed 42) (Rng.ofSeed 42) rfl rfl⟩

/-- Claim C6: with probability 0 the run is the identity transform in every
mode: it completes, the output equals the input byte for byte, and the
corrupted-bytes count is 0. -/
theorem zeroProbabilityIdentity (input : List Nat) (dest : Option (List Nat))
    (mode : Mode) (bl : Nat) (r : Rng) (hv : RngValid r) :
    corrupt_file (some input) dest 0 mode bl r
      = (Outcome.completed, some input, input.length, 0) :=
  run_nonpos input dest 0 mode bl r le_rfl hv

theorem zeroProbabilityIdentity_witness :
    RngValid rng0 ∧
      corrupt_file (some [3, 1, 4, 1, 5]) none 0 Mode.burst 2 rng0
        = (Outcome.completed, some [3, 1, 4, 1, 5], 5, 0) :=
  ⟨rng0_valid,
    zeroProbabilityIdentity [3, 1, 4, 1, 5] none Mode.burst 2 rng0 rng0_valid⟩

/-- Claim C10: every probability value at most 0 — including negative
values outside the documented domain, which the program never validates —
behaves exactly as probability 0: the run completes, the output equals the
input, and the corrupted-bytes count is 0, in every mode. -/
theorem nonpositiveProbabilityIdentity (input : List Nat)
    (dest : Option (List Nat)) (prob : ℚ) (mode : Mode) (bl : Nat) (r : Rng)
    (hp : prob ≤ 0) (hv : RngValid r) :
    corrupt_file (some input) dest prob mode bl r
      = (Outcome.completed, some input, input.length, 0) :=
  run_nonpos input dest prob mode bl r hp hv

theorem nonpositiveProbabilityIdentity_witness :
    ((-1 : ℚ) ≤ 0 ∧ RngValid rng0) ∧
      corrupt_file (some [9, 8]) none (-1) Mode.replace 1 rng0
        = (Outcome.completed, some [9, 8], 2, 0) :=
  ⟨⟨by norm_num, rng0_valid⟩,
    nonpositiveProbabilityIdentity [9, 8] none (-1) Mode.replace 1 rng0
      (by norm_num) rng0_valid⟩

/-- Claim C1: for every input content and configuration (any probability,
any mode, any burst length, any random stream), a run that completes
writes an output whose byte length equals the input's byte length: bytes
are only changed in place, never inserted or dropped. -/
theorem lengthPreservation (input : List Nat) (dest : Option (List Nat))
    (prob : ℚ) (mode : Mode) (bl : Nat) (r : Rng) (out : List Nat) (p c : Nat)
    (h : corrupt_file (some input) dest prob mode bl r
        = (Outcome.completed, some out, p, c)) :
    out.length = input.length := by
  obtain ⟨hgo, hout, -, -⟩ :=
    completed_run_out input dest prob mode bl r out p c h
  rw [hout]
  exact ((corruptChunksGo_spec prob mode bl input.length r input _ true
    hgo).1 rfl).1

theorem lengthPreservation_witness :
    corrupt_file (some [1, 2]) none 1 Mode.replace 1 rng0
        = (Outcome.completed, some [0, 0], 2, 2) ∧
      ([0, 0] : List Nat).length = ([1, 2] : List Nat).length :=
  ⟨by decide,
    lengthPreservation [1, 2] none 1 Mode.replace 1 rng0 [0, 0] 2 2
      (by decide)⟩

/-- Claim C3 as stated is false on the code: `corrupted_bytes` is
incremented inside the chunk walk, while `processed_bytes` only advances
after the chunk is written, so immediately after the first mid-chunk
corrupted-byte update of the run the snapshot is
`(processedBytes, corruptedBytes) = (0, 1)`.  Concrete input: one byte
`[5]`, probability 1, zero mode. -/
theorem statsInvariant_counterexample :
    ¬ (∀ e ∈ statTrace 0 0 (corruptChunks 1 Mode.zero 1 rng0 [5]).1,
        e.2 ≤ e.1) := by decide

/-- Claim C3 (amended): the invariant `corruptedBytes ≤ processedBytes`
holds after each update of `processedBytes` — that is, at every chunk
boundary, including completion — but not at mid-chunk corrupted-byte
updates, where `corruptedBytes` may temporarily exceed `processedBytes`
because `processed_bytes` is only advanced after the chunk is written. -/
theorem statsInvariantAtBoundaries (prob : ℚ) (mode : Mode) (bl : Nat)
    (r : Rng) (input : List Nat) :
    ∀ e ∈ boundaryTrace 0 0 (corruptChunks prob mode bl r input).1,
      e.2 ≤ e.1 := by
  have h := corruptChunksGo_spec prob mode bl input.length r input
    (corruptChunks prob mode bl r input).1
    (corruptChunks prob mode bl r input).2 rfl
  exact boundaryTrace_le _ 0 0 le_rfl h.2.2.2

theorem statsInvariantAtBoundaries_witness :
    (1, 1) ∈ boundaryTrace 0 0 (corruptChunks 1 Mode.zero 1 rng0 [5]).1 ∧
      (1 : Nat) ≤ 1 :=
  ⟨by decide,
    statsInvariantAtBoundaries 1 Mode.zero 1 rng0 [5] (1, 1) (by decide)⟩

/-- Claim C4 as stated is false on the code: a byte is counted as
corrupted when a corruption write targets it, even if the written value
equals the original, so `corruptedBytes` can exceed the number of bytes
whose output value differs from their input value.  Concrete input: the
single byte `[0]` in zero mode at probability 1 completes with
`corruptedBytes = 1`, yet the output equals the input everywhere
(`diffCount = 0`). -/
theorem corruptedCount_counterexample :
    corrupt_file (some [0]) none 1 Mode.zero 1 rng0
        = (Outcome.completed, some [0], 1, 1) ∧
      ¬ (1 = diffCount [0] [0]) := by decide

/-- Claim C4 (amended): at run completion, `corruptedBytes` counts the
positions at which a corruption write was applied; this is an upper bound
on — not always equal to — the number of input bytes whose output value
differs from their input value, since a targeted byte may keep its value
(zero mode on a 0x00 byte, or replace/burst drawing the original value). -/
theorem corruptedBoundsDiff (input : List Nat) (dest : Option (List Nat))
    (prob : ℚ) (mode : Mode) (bl : Nat) (r : Rng) (out : List Nat)
    (p c : Nat)
    (h : corrupt_file (some input) dest prob mode bl r
        = (Outcome.completed, some out, p, c)) :
    diffCount input out ≤ c := by
  obtain ⟨hgo, hout, -, hc⟩ :=
    completed_run_out input dest prob mode bl r out p c h
  rw [hout, hc]
  exact (corruptChunksGo_spec prob mode bl input.length r input _ true
    hgo).2.2.1

theorem corruptedBoundsDiff_witness :
    corrupt_file (some [0]) none 1 Mode.replace 1 rng0
        = (Outcome.completed, some [0], 1, 1) ∧
      diffCount [0] [0] ≤ 1 :=
  ⟨by decide,
    corruptedBoundsDiff [0] none 1 Mode.replace 1 rng0 [0] 1 1 (by decide)⟩

/-- Claim C7: at probability 1 in the replace, bitflip, or zero mode,
every byte position triggers and is counted, so the run completes with
`corruptedBytes = processedBytes` (both equal to the input length). -/
theorem fullProbabilitySingleModes (input : List Nat)
    (dest : Option (List Nat)) (mode : Mode) (bl : Nat) (r : Rng)
    (hm : mode = Mode.replace ∨ mode = Mode.bitflip ∨ mode = Mode.zero)
    (hv : RngValid r) :
    ∃ out, corrupt_file (some input) dest 1 mode bl r
      = (Outcome.completed, some out, input.length, input.length) := by
  have hmb : mode ≠ Mode.burst := by
    rcases hm with h | h | h <;> subst h <;> simp
  obtain ⟨cs, hgo, hcor⟩ := corruptChunksGo_alltrigger 1 mode bl le_rfl hmb
    input.length r input (fun t => (hv t).2) le_rfl
  have hproc : processedOf cs = input.length :=
    ((corruptChunksGo_spec 1 mode bl input.length r input cs true hgo).1
      rfl).2
  refine ⟨outputOf cs, ?_⟩
  simp only [corrupt_file, corruptChunks, hgo, hcor, hproc, if_true]

theorem fullProbabilitySingleModes_witness :
    ((Mode.zero = Mode.replace ∨ Mode.zero = Mode.bitflip ∨
        Mode.zero = Mode.zero) ∧ RngValid rng0) ∧
      ∃ out, corrupt_file (some [7, 7, 7]) none 1 Mode.zero 5 rng0
        = (Outcome.completed, some out, 3, 3) :=
  ⟨⟨Or.inr (Or.inr rfl), rng0_valid⟩,
    fullProbabilitySingleModes [7, 7, 7] none Mode.zero 5 rng0
      (Or.inr (Or.inr rfl)) rng0_valid⟩

/-- Claim C8: in bitflip mode, every byte counted as corrupted has an
output value differing from its input value in exactly one bit position:
the corrupted-bytes count equals the number of differing positions, and
every position is either unchanged or equal to the input XORed with a
single one-bit mask `1 <<< k`, `k < 8` (and then differs from the
input). -/
theorem bitflipOneBit (input : List Nat) (dest : Option (List Nat))
    (prob : ℚ) (bl : Nat) (r : Rng) (out : List Nat) (p c : Nat)
    (h : corrupt_file (some input) dest prob Mode.bitflip bl r
        = (Outcome.completed, some out, p, c)) :
    c = diffCount input out ∧
      List.Forall₂
        (fun w v => w = v ∨ ∃ k, k < 8 ∧ v = w ^^^ (1 <<< k) ∧ v ≠ w)
        input out := by
  obtain ⟨hgo, hout, -, hc⟩ :=
    completed_run_out input dest prob Mode.bitflip bl r out p c h
  obtain ⟨hdc, hrel⟩ :=
    corruptChunksGo_bitflip prob bl input.length r input _ hgo
  subst hout
  subst hc
  exact ⟨hdc, hrel⟩

theorem bitflipOneBit_witness :
    corrupt_file (some [0, 255]) none 1 Mode.bitflip 1 rng0
        = (Outcome.completed, some [1, 254], 2, 2) ∧
      (2 = diffCount [0, 255] [1, 254] ∧
        List.Forall₂
          (fun w v => w = v ∨ ∃ k, k < 8 ∧ v = w ^^^ (1 <<< k) ∧ v ≠ w)
          [0, 255] [1, 254]) :=
  ⟨by decide,
    bitflipOneBit [0, 255] none 1 1 rng0 [1, 254] 2 2 (by decide)⟩

/-- Claim C5: in burst mode, when the trial at the current walk position
triggers, exactly the positions `i + j` for `j < burstLength` that lie
within the chunk bounds are overwritten with fresh uniform random bytes,
each counted as one corrupted byte (the count is the number of in-bounds
positions); positions past the chunk end are skipped; and the walk then
advances by exactly `burstLength` — the loop continues on the suffix
`burstLength` positions further on — regardless of how many positions were
in bounds.  (`b :: tl` is the suffix of the chunk from the current
position; position `j` of `burstWrite`'s result is position `i + j` of the
chunk.) -/
theorem burstTriggerStep (prob : ℚ) (bl : Nat) (r : Rng) (b : Nat)
    (tl : List Nat) (fuel : Nat) (htrig : r.floats r.idx < prob) :
    (burstWrite r.next (b :: tl) bl).2.1 = min bl (b :: tl).length ∧
    (∀ j, j < min bl (b :: tl).length →
      (burstWrite r.next (b :: tl) bl).1[j]?
        = some (r.ints (r.idx + 1 + j) % 256)) ∧
    (∀ j, bl ≤ j →
      (burstWrite r.next (b :: tl) bl).1[j]? = (b :: tl)[j]?) ∧
    chunkLoop prob Mode.burst bl r (b :: tl) (fuel + 1) =
      (chunkLoop prob Mode.burst bl (burstWrite r.next (b :: tl) bl).2.2
          ((burstWrite r.next (b :: tl) bl).1.drop bl) fuel).map
        (fun t => ((burstWrite r.next (b :: tl) bl).1.take bl ++ t.1,
          (burstWrite r.next (b :: tl) bl).2.1 + t.2.1, t.2.2)) := by
  refine ⟨burstWrite_count bl r.next (b :: tl), ?_, ?_, ?_⟩
  · intro j hj
    have h := burstWrite_getElem? bl r.next (b :: tl) j hj
    simpa using h
  · intro j hj
    have hd := burstWrite_drop bl r.next (b :: tl)
    have h1 : ((burstWrite r.next (b :: tl) bl).1.drop bl)[j - bl]?
        = ((b :: tl).drop bl)[j - bl]? := by rw [hd]
    rw [List.getElem?_drop, List.getElem?_drop] at h1
    rwa [Nat.add_sub_cancel' hj] at h1
  · simp only [chunkLoop, Rng.random, if_pos htrig, if_pos rfl, if_true]

theorem burstTriggerStep_witness :
    rng0.floats rng0.idx < 1 ∧
      ((burstWrite rng0.next (9 :: [9]) 3).2.1 = min 3 (9 :: [9]).length ∧
      (∀ j, j < min 3 (9 :: [9]).length →
        (burstWrite rng0.next (9 :: [9]) 3).1[j]?
          = some (rng0.ints (rng0.idx + 1 + j) % 256)) ∧
      (∀ j, 3 ≤ j →
        (burstWrite rng0.next (9 :: [9]) 3).1[j]? = (9 :: [9])[j]?) ∧
      chunkLoop 1 Mode.burst 3 rng0 (9 :: [9]) (4 + 1) =
        (chunkLoop 1 Mode.burst 3 (burstWrite rng0.next (9 :: [9]) 3).2.2
            ((burstWrite rng0.next (9 :: [9]) 3).1.drop 3) 4).map
          (fun t => ((burstWrite rng0.next (9 :: [9]) 3).1.take 3 ++ t.1,
            (burstWrite rng0.next (9 :: [9]) 3).2.1 + t.2.1, t.2.2))) :=
  ⟨by decide, burstTriggerStep 1 3 rng0 9 [9] 4 (by decide)⟩

end Corrupter
